import Mathlib

/-!
Verification of the byte-range file layer in src/fs.c (fsRead, fsWrite, fsSeek)
against its design specification.

The file system state visible to fs.c through its collaborators (the BFS
inode/allocation service and the block store, declared in bfs.h and not part
of src/) is modelled as a map from logical file block numbers to optionally
allocated block contents, together with the file size and the per-handle
cursor.  Machine integers (i32) are modelled as Int at the API boundary and
as Nat for the always-non-negative cursor/size bookkeeping; all defined C
executions of this code keep these quantities in range, and signed overflow
has no defined behaviour to capture.  A call that ends in FATAL(...) is
modelled as the result none.
-/

namespace BFS

/-- Modelled from the spec: the system-wide block size constant BYTESPERBLOCK
(defined in bfs.h, which is not under src/); section 8 of the spec fixes the
block size at 512. -/
def BYTESPERBLOCK : Nat := 512

/-- One block-store transfer performed by fs.c via bioRead/bioWrite, recorded
by the logical file block number it targets.  Per spec section 6, the
allocation service binds each logical block to its own fresh physical block,
so distinct logical blocks are distinct disk blocks. -/
inductive BioEv where
  | rd (fbn : Nat)
  | wr (fbn : Nat)
deriving DecidableEq

/-- Logical block number targeted by a transfer. -/
def BioEv.blk : BioEv → Nat
  | .rd f => f
  | .wr f => f

/-- Whether a transfer is a bioRead. -/
def BioEv.isRd : BioEv → Bool
  | .rd _ => true
  | .wr _ => false

/-- Number of transfers (reads or writes) of block f in a trace. -/
def countEv (f : Nat) (tr : List BioEv) : Nat :=
  tr.countP (fun e => e.blk == f)

/-- Number of bioRead transfers of block f in a trace. -/
def countRd (f : Nat) (tr : List BioEv) : Nat :=
  tr.countP (fun e => e.blk == f && e.isRd)

/-- Number of bioWrite transfers of block f in a trace. -/
def countWr (f : Nat) (tr : List BioEv) : Nat :=
  tr.countP (fun e => e.blk == f && !e.isRd)

/-- Modelled from the spec, section 6: the state of one open file as fs.c can
observe it through the collaborators in bfs.h (not under src/).  blocks f
is the contents of the physical block bound to logical block f, or none when
bfsFbnToDbn would return ENODBN (resolveOrNone); size is bfsGetSize/bfsSetSize
and curs is bfsTell/bfsSetCursor.  bfsExtend is modelled as a no-op, which
section 6 sanctions when allocation happens lazily per block in allocate. -/
structure FsState where
  blocks : Nat → Option (Nat → Nat)
  size : Nat
  curs : Nat

/-- The byte stored at absolute file position p: index into the block holding
p, with an unallocated block reading as zero, exactly as the fsRead path
treats a hole (zero-initialised blockBuf left untouched when dbn == ENODBN). -/
def blockByte (blocks : Nat → Option (Nat → Nat)) (p : Nat) : Nat :=
  match blocks (p / BYTESPERBLOCK) with
  | none => 0
  | some b => b (p % BYTESPERBLOCK)

/-- The byte a read of position p would observe in state st. -/
def byteAt (st : FsState) (p : Nat) : Nat := blockByte st.blocks p

/-- memcpy(dst + dOff, src + sOff, len): the function equal to src shifted on
[dOff, dOff + len) and equal to dst elsewhere. -/
def memcpy (dst src : Nat → Nat) (dOff sOff len : Nat) : Nat → Nat :=
  fun i => if dOff ≤ i ∧ i < dOff + len then src (sOff + (i - dOff)) else dst i

/-- The per-iteration transfer length blockBytesToRead/blockBytesToWrite of
fs.c: BYTESPERBLOCK - offset, clipped so the loop never goes past total. -/
def blockChunk (total done off : Nat) : Nat :=
  if done + (BYTESPERBLOCK - off) > total then total - done else BYTESPERBLOCK - off

/-- The scratch blockBuf the fsRead loop works on for block fbn: bioRead of
the existing block, or the zero-initialised buffer when dbn == ENODBN. -/
def readBlockBuf (blocks : Nat → Option (Nat → Nat)) (fbn : Nat) : Nat → Nat :=
  match blocks fbn with
  | none => fun _ => 0
  | some b => b

/-- The transfers one fsRead loop iteration performs on block fbn: a single
bioRead when the block is allocated, none for a hole. -/
def readTrEv (blocks : Nat → Option (Nat → Nat)) (fbn : Nat) : List BioEv :=
  match blocks fbn with
  | none => []
  | some _ => [BioEv.rd fbn]

/-- The block-by-block while loop of fsRead (fs.c lines 111-132), carrying the
running byte count, current block number and intra-block offset, plus the
trace of block transfers made so far. -/
def fsReadLoop (st : FsState) (total : Nat) (buf : Nat → Nat)
    (bytesRead fbn off : Nat) (tr : List BioEv) :
    Nat × (Nat → Nat) × List BioEv :=
  if h : bytesRead < total ∧ off < BYTESPERBLOCK then
    fsReadLoop st total
      (memcpy buf (readBlockBuf st.blocks fbn) bytesRead off (blockChunk total bytesRead off))
      (bytesRead + blockChunk total bytesRead off) (fbn + 1) 0
      (tr ++ readTrEv st.blocks fbn)
  else (bytesRead, buf, tr)
termination_by total - bytesRead
decreasing_by
  unfold blockChunk
  rcases h with ⟨h1, h2⟩
  split <;> omega

/-- The effect on the modelled block store of bioWrite(dbn, blk) where dbn is
the physical block bound to logical block fbn (allocating the binding first
via bfsAllocBlock when the block was unallocated). -/
def updBlocks (blocks : Nat → Option (Nat → Nat)) (fbn : Nat) (blk : Nat → Nat) :
    Nat → Option (Nat → Nat) :=
  fun f => if f = fbn then some blk else blocks f

/-- The clipped request length of fsRead (fs.c line 100):
(cursor + numb > size) ? (size - cursor) : numb, in signed arithmetic. -/
def bytesToRead (st : FsState) (numb : Int) : Int :=
  if (st.curs : Int) + numb > (st.size : Int) then (st.size : Int) - (st.curs : Int) else numb

/-- fsRead (fs.c lines 92-138).  Returns none on FATAL(ENEGNUMB); otherwise
some (bytes read, resulting destination buffer, resulting state, transfer
trace).  The early return at EOF leaves the cursor untouched. -/
def fsRead (st : FsState) (numb : Int) (buf : Nat → Nat) :
    Option (Nat × (Nat → Nat) × FsState × List BioEv) :=
  if numb ≤ 0 then none
  else if bytesToRead st numb ≤ 0 then some (0, buf, st, [])
  else
    some ((fsReadLoop st (bytesToRead st numb).toNat buf 0
            (st.curs / BYTESPERBLOCK) (st.curs % BYTESPERBLOCK) []).1,
      (fsReadLoop st (bytesToRead st numb).toNat buf 0
            (st.curs / BYTESPERBLOCK) (st.curs % BYTESPERBLOCK) []).2.1,
      { st with curs := st.curs + (fsReadLoop st (bytesToRead st numb).toNat buf 0
            (st.curs / BYTESPERBLOCK) (st.curs % BYTESPERBLOCK) []).1 },
      (fsReadLoop st (bytesToRead st numb).toNat buf 0
            (st.curs / BYTESPERBLOCK) (st.curs % BYTESPERBLOCK) []).2.2)

/-- The gap zero-fill while loop of fsWrite (fs.c lines 213-227): starting at
the old size, step one whole block at a time until the cursor is reached,
resolving or allocating the block and bioWrite-ing a full zero block. -/
def gapLoop (blocks : Nat → Option (Nat → Nat)) (gapStart cursor : Nat)
    (tr : List BioEv) : (Nat → Option (Nat → Nat)) × List BioEv :=
  if gapStart < cursor then
    gapLoop
      (updBlocks blocks (gapStart / BYTESPERBLOCK) (fun _ => 0))
      (gapStart + BYTESPERBLOCK) cursor
      (tr ++ [BioEv.wr (gapStart / BYTESPERBLOCK)])
  else (blocks, tr)
termination_by cursor - gapStart
decreasing_by
  have hB : 0 < BYTESPERBLOCK := by decide
  omega

/-- The extension/gap-fill stage of fsWrite (fs.c lines 206-227): when the
write reaches past the current size, extend the mapping (bfsExtend, a no-op
here since allocation is modelled lazily) and, when the cursor lies beyond
the old size, run the zero-fill loop over the gap. -/
def gapBlocks (st : FsState) (n : Nat) : (Nat → Option (Nat → Nat)) × List BioEv :=
  if st.curs + n > st.size then
    if st.curs > st.size then gapLoop st.blocks st.size st.curs [] else (st.blocks, [])
  else (st.blocks, [])

/-- The scratch blockBuf one fsWrite loop iteration works on for block fbn
(fs.c lines 240-251): a zero buffer for a freshly allocated block, the
bioRead of the existing block when only part of it is modified, and the
(about to be fully overwritten) zero buffer otherwise. -/
def writeBlockBuf (blocks : Nat → Option (Nat → Nat))
    (fbn numb bytesWritten off : Nat) : Nat → Nat :=
  match blocks fbn with
  | none => fun _ => 0
  | some b =>
    if off ≠ 0 ∨ numb - bytesWritten < BYTESPERBLOCK then b else fun _ => 0

/-- The bioRead transfers one fsWrite loop iteration performs on block fbn:
one read exactly when the block exists and is only partially modified. -/
def writeTrEv (blocks : Nat → Option (Nat → Nat))
    (fbn numb bytesWritten off : Nat) : List BioEv :=
  match blocks fbn with
  | none => []
  | some _ =>
    if off ≠ 0 ∨ numb - bytesWritten < BYTESPERBLOCK then [BioEv.rd fbn] else []

/-- The block-by-block while loop of fsWrite (fs.c lines 239-268): per block,
resolve or allocate, read-modify-write when the block is partially covered,
copy the source sub-range in, and bioWrite the whole block back. -/
def fsWriteLoop (blocks : Nat → Option (Nat → Nat)) (numb : Nat) (buf : Nat → Nat)
    (bytesWritten fbn off : Nat) (tr : List BioEv) :
    (Nat → Option (Nat → Nat)) × Nat × List BioEv :=
  if h : bytesWritten < numb ∧ off < BYTESPERBLOCK then
    fsWriteLoop
      (updBlocks blocks fbn
        (memcpy (writeBlockBuf blocks fbn numb bytesWritten off) buf off
          bytesWritten (blockChunk numb bytesWritten off)))
      numb buf (bytesWritten + blockChunk numb bytesWritten off) (fbn + 1) 0
      (tr ++ writeTrEv blocks fbn numb bytesWritten off ++ [BioEv.wr fbn])
  else (blocks, bytesWritten, tr)
termination_by numb - bytesWritten
decreasing_by
  unfold blockChunk
  rcases h with ⟨h1, h2⟩
  split <;> omega

/-- fsWrite (fs.c lines 198-274).  Returns none on FATAL(ENEGNUMB); otherwise
some (resulting state, transfer trace).  Size is updated to cursor + numb
exactly when the write reaches past the old size, the gap-fill runs first,
the block loop runs second, and the cursor advances by the bytes written. -/
def fsWrite (st : FsState) (numb : Int) (buf : Nat → Nat) :
    Option (FsState × List BioEv) :=
  if numb ≤ 0 then none
  else
    some ({ blocks := (fsWriteLoop (gapBlocks st numb.toNat).1 numb.toNat buf 0
              (st.curs / BYTESPERBLOCK) (st.curs % BYTESPERBLOCK) []).1,
            size := if st.curs + numb.toNat > st.size then st.curs + numb.toNat else st.size,
            curs := st.curs + (fsWriteLoop (gapBlocks st numb.toNat).1 numb.toNat buf 0
              (st.curs / BYTESPERBLOCK) (st.curs % BYTESPERBLOCK) []).2.1 },
      (gapBlocks st numb.toNat).2 ++ (fsWriteLoop (gapBlocks st numb.toNat).1 numb.toNat buf 0
              (st.curs / BYTESPERBLOCK) (st.curs % BYTESPERBLOCK) []).2.2)

/-- The C stdio whence constant accepted by fsSeek for an absolute seek. -/
def SEEK_SET : Int := 0

/-- The C stdio whence constant accepted by fsSeek for a cursor-relative seek. -/
def SEEK_CUR : Int := 1

/-- The C stdio whence constant accepted by fsSeek for an end-relative seek. -/
def SEEK_END : Int := 2

/-- fsSeek (fs.c lines 150-172).  A negative offset is rejected with
FATAL(EBADCURS) before the whence dispatch; an unknown whence is
FATAL(EBADWHENCE).  A successful seek only moves the cursor; it makes no
block transfer, hence the empty trace. -/
def fsSeek (st : FsState) (offset : Int) (whence : Int) :
    Option (FsState × List BioEv) :=
  if offset < 0 then none
  else if whence = SEEK_SET then some ({ st with curs := offset.toNat }, [])
  else if whence = SEEK_CUR then some ({ st with curs := st.curs + offset.toNat }, [])
  else if whence = SEEK_END then some ({ st with curs := st.size + offset.toNat }, [])
  else none

/-- One user-level call against an open handle. -/
inductive Op where
  | readOp (numb : Int)
  | writeOp (numb : Int) (buf : Nat → Nat)
  | seekOp (offset : Int) (whence : Int)

/-- The state of a freshly created, never written file: no blocks allocated,
size 0, cursor 0. -/
def initState : FsState := { blocks := fun _ => none, size := 0, curs := 0 }

/-- Execute one call, recording the interval of byte positions the call
explicitly writes (the write's [cursor, cursor + numb) range). -/
def runStep (st : FsState) (op : Op) : Option (FsState × List (Nat × Nat)) :=
  match op with
  | .readOp n => (fsRead st n (fun _ => 0)).map (fun r => (r.2.2.1, []))
  | .writeOp n b => (fsWrite st n b).map (fun r => (r.1, [(st.curs, n.toNat)]))
  | .seekOp off w => (fsSeek st off w).map (fun r => (r.1, []))

/-- Execute a sequence of calls, accumulating every explicitly written
interval; none as soon as any call would FATAL. -/
def run : FsState → List Op → Option (FsState × List (Nat × Nat))
  | st, [] => some (st, [])
  | st, op :: ops =>
    match runStep st op with
    | none => none
    | some (st1, w) => (run st1 ops).map (fun r => (r.1, w ++ r.2))

/-- Position p lies in one of the recorded written intervals. -/
def inW (w : List (Nat × Nat)) (p : Nat) : Prop :=
  ∃ r ∈ w, r.1 ≤ p ∧ p < r.1 + r.2

instance (w : List (Nat × Nat)) (p : Nat) : Decidable (inW w p) := by
  unfold inW
  infer_instance

/-- Position p lies in a block that the gap zero-fill loop, started at
gapStart and bounded by cursor, overwrites with zeros: the loop visits block
gapStart / BYTESPERBLOCK + k for each step value gapStart + k * BYTESPERBLOCK
below cursor. -/
def gapZeroed (gapStart cursor p : Nat) : Prop :=
  gapStart / BYTESPERBLOCK ≤ p / BYTESPERBLOCK ∧
    gapStart + (p / BYTESPERBLOCK - gapStart / BYTESPERBLOCK) * BYTESPERBLOCK < cursor

instance (gapStart cursor p : Nat) : Decidable (gapZeroed gapStart cursor p) := by
  unfold gapZeroed
  infer_instance

/-! Arithmetic and bookkeeping facts. -/

theorem B_eq : BYTESPERBLOCK = 512 := rfl

theorem B_pos : 0 < BYTESPERBLOCK := by decide

theorem memcpy_out (dst src : Nat → Nat) (dOff sOff len i : Nat)
    (h : ¬(dOff ≤ i ∧ i < dOff + len)) :
    memcpy dst src dOff sOff len i = dst i := by
  simp only [memcpy, if_neg h]

theorem memcpy_in (dst src : Nat → Nat) (dOff sOff len i : Nat)
    (h1 : dOff ≤ i) (h2 : i < dOff + len) :
    memcpy dst src dOff sOff len i = src (sOff + (i - dOff)) := by
  simp only [memcpy, if_pos (And.intro h1 h2)]

theorem blockChunk_pos (total done off : Nat) (h1 : done < total)
    (h2 : off < BYTESPERBLOCK) : 0 < blockChunk total done off := by
  unfold blockChunk; split <;> omega

theorem blockChunk_le (total done off : Nat) :
    blockChunk total done off ≤ total - done := by
  unfold blockChunk; split <;> omega

theorem blockChunk_le_B (total done off : Nat) :
    blockChunk total done off ≤ BYTESPERBLOCK - off := by
  unfold blockChunk; split <;> omega

theorem blockChunk_full (total done off : Nat)
    (h : done + blockChunk total done off < total) :
    blockChunk total done off = BYTESPERBLOCK - off := by
  unfold blockChunk at h ⊢
  by_cases hc : done + (BYTESPERBLOCK - off) > total
  · rw [if_pos hc] at h; omega
  · rw [if_neg hc]

theorem countEv_append (f : Nat) (l1 l2 : List BioEv) :
    countEv f (l1 ++ l2) = countEv f l1 + countEv f l2 := by
  simp [countEv, List.countP_append]

theorem countRd_append (f : Nat) (l1 l2 : List BioEv) :
    countRd f (l1 ++ l2) = countRd f l1 + countRd f l2 := by
  simp [countRd, List.countP_append]

theorem countWr_append (f : Nat) (l1 l2 : List BioEv) :
    countWr f (l1 ++ l2) = countWr f l1 + countWr f l2 := by
  simp [countWr, List.countP_append]

theorem countEv_nil (f : Nat) : countEv f [] = 0 := rfl

theorem countRd_nil (f : Nat) : countRd f [] = 0 := rfl

theorem countWr_nil (f : Nat) : countWr f [] = 0 := rfl

theorem countEv_rd_single (f g : Nat) :
    countEv f [BioEv.rd g] = if g = f then 1 else 0 := by
  by_cases h : g = f <;>
    simp [countEv, List.countP_cons, List.countP_nil, BioEv.blk, h]

theorem countEv_wr_single (f g : Nat) :
    countEv f [BioEv.wr g] = if g = f then 1 else 0 := by
  by_cases h : g = f <;>
    simp [countEv, List.countP_cons, List.countP_nil, BioEv.blk, h]

theorem countRd_rd_single (f g : Nat) :
    countRd f [BioEv.rd g] = if g = f then 1 else 0 := by
  by_cases h : g = f <;>
    simp [countRd, List.countP_cons, List.countP_nil, BioEv.blk, BioEv.isRd, h]

theorem countRd_wr_single (f g : Nat) : countRd f [BioEv.wr g] = 0 := by
  simp [countRd, List.countP_cons, List.countP_nil, BioEv.blk, BioEv.isRd]

theorem countWr_wr_single (f g : Nat) :
    countWr f [BioEv.wr g] = if g = f then 1 else 0 := by
  by_cases h : g = f <;>
    simp [countWr, List.countP_cons, List.countP_nil, BioEv.blk, BioEv.isRd, h]

theorem countWr_rd_single (f g : Nat) : countWr f [BioEv.rd g] = 0 := by
  simp [countWr, List.countP_cons, List.countP_nil, BioEv.blk, BioEv.isRd]

theorem countEv_eq_add (f : Nat) (tr : List BioEv) :
    countEv f tr = countRd f tr + countWr f tr := by
  induction tr with
  | nil => rfl
  | cons e t ih =>
    cases e with
    | rd g =>
      by_cases h : g = f <;>
        simp [countEv, countRd, countWr, List.countP_cons, BioEv.blk, BioEv.isRd, h] at ih ⊢ <;>
        omega
    | wr g =>
      by_cases h : g = f <;>
        simp [countEv, countRd, countWr, List.countP_cons, BioEv.blk, BioEv.isRd, h] at ih ⊢ <;>
        omega

theorem readTrEv_counts (blocks : Nat → Option (Nat → Nat)) (fbn f : Nat) :
    countEv f (readTrEv blocks fbn) ≤ (if fbn = f then 1 else 0) ∧
    countWr f (readTrEv blocks fbn) = 0 := by
  unfold readTrEv
  cases blocks fbn with
  | none => constructor <;> simp [countEv_nil, countWr_nil]
  | some b =>
    refine ⟨le_of_eq (countEv_rd_single f fbn), countWr_rd_single f fbn⟩

theorem readBlockBuf_eq (blocks : Nat → Option (Nat → Nat)) (fbn j : Nat)
    (hj : j < BYTESPERBLOCK) :
    readBlockBuf blocks fbn j = blockByte blocks (fbn * BYTESPERBLOCK + j) := by
  have hd : (fbn * BYTESPERBLOCK + j) / BYTESPERBLOCK = fbn := by
    simp only [B_eq] at hj ⊢; omega
  have hm : (fbn * BYTESPERBLOCK + j) % BYTESPERBLOCK = j := by
    simp only [B_eq] at hj ⊢; omega
  unfold readBlockBuf blockByte
  rw [hd, hm]
  cases blocks fbn <;> rfl

/-! Correctness of the fsRead block loop. -/

theorem fsReadLoop_count (st : FsState) (total : Nat) :
    ∀ buf bytesRead fbn off tr, bytesRead ≤ total → off < BYTESPERBLOCK →
      (fsReadLoop st total buf bytesRead fbn off tr).1 = total := by
  intro buf bytesRead fbn off tr
  induction buf, bytesRead, fbn, off, tr using fsReadLoop.induct with
  | st => exact st
  | total => exact total
  | case1 buf bytesRead fbn off tr h ih =>
    intro h1 h2
    rw [fsReadLoop.eq_def, dif_pos h]
    exact ih (by have := blockChunk_le total bytesRead off; omega) B_pos
  | case2 buf bytesRead fbn off tr h =>
    intro h1 h2
    rw [fsReadLoop.eq_def, dif_neg h]
    simp only
    omega

theorem fsReadLoop_frame (st : FsState) (total : Nat) :
    ∀ buf bytesRead fbn off tr i, i < bytesRead ∨ total ≤ i →
      (fsReadLoop st total buf bytesRead fbn off tr).2.1 i = buf i := by
  intro buf bytesRead fbn off tr
  induction buf, bytesRead, fbn, off, tr using fsReadLoop.induct with
  | st => exact st
  | total => exact total
  | case1 buf bytesRead fbn off tr h ih =>
    intro i hi
    rw [fsReadLoop.eq_def, dif_pos h]
    have hcl := blockChunk_le total bytesRead off
    rw [ih i (by omega)]
    exact memcpy_out _ _ _ _ _ _ (by omega)
  | case2 buf bytesRead fbn off tr h =>
    intro i hi
    rw [fsReadLoop.eq_def, dif_neg h]

theorem fsReadLoop_reads (st : FsState) (total : Nat) :
    ∀ buf bytesRead fbn off tr, off < BYTESPERBLOCK →
      ∀ i, bytesRead ≤ i → i < total →
      (fsReadLoop st total buf bytesRead fbn off tr).2.1 i
        = blockByte st.blocks (fbn * BYTESPERBLOCK + off + (i - bytesRead)) := by
  intro buf bytesRead fbn off tr
  induction buf, bytesRead, fbn, off, tr using fsReadLoop.induct with
  | st => exact st
  | total => exact total
  | case1 buf bytesRead fbn off tr h ih =>
    intro hoff i hi1 hi2
    rw [fsReadLoop.eq_def, dif_pos h]
    have hcB := blockChunk_le_B total bytesRead off
    by_cases hic : i < bytesRead + blockChunk total bytesRead off
    · rw [fsReadLoop_frame st total _ _ _ _ _ i (Or.inl hic)]
      rw [memcpy_in _ _ _ _ _ _ hi1 hic]
      rw [readBlockBuf_eq st.blocks fbn (off + (i - bytesRead)) (by omega)]
      rw [Nat.add_assoc]
    · have hfull := blockChunk_full total bytesRead off (by omega)
      have hge : bytesRead + blockChunk total bytesRead off ≤ i := by omega
      rw [ih B_pos i hge hi2]
      have hidx : (fbn + 1) * BYTESPERBLOCK + 0 + (i - (bytesRead + blockChunk total bytesRead off))
          = fbn * BYTESPERBLOCK + off + (i - bytesRead) := by
        simp only [B_eq] at hfull hoff ⊢
        omega
      rw [hidx]
  | case2 buf bytesRead fbn off tr h =>
    intro hoff i hi1 hi2
    exact absurd (And.intro (by omega) hoff) h

theorem fsReadLoop_tr (st : FsState) (total : Nat) :
    ∀ buf bytesRead fbn off tr f,
      countEv f (fsReadLoop st total buf bytesRead fbn off tr).2.2
          ≤ countEv f tr + (if fbn ≤ f then 1 else 0) ∧
      countWr f (fsReadLoop st total buf bytesRead fbn off tr).2.2 = countWr f tr := by
  intro buf bytesRead fbn off tr
  induction buf, bytesRead, fbn, off, tr using fsReadLoop.induct with
  | st => exact st
  | total => exact total
  | case1 buf bytesRead fbn off tr h ih =>
    intro f
    rw [fsReadLoop.eq_def, dif_pos h]
    obtain ⟨ih1, ih2⟩ := ih f
    obtain ⟨hre1, hre2⟩ := readTrEv_counts st.blocks fbn f
    rw [countEv_append] at ih1
    rw [countWr_append, hre2] at ih2
    constructor
    · refine le_trans ih1 ?_
      split_ifs at hre1 ⊢ <;> omega
    · rw [ih2]
      omega
  | case2 buf bytesRead fbn off tr h =>
    intro f
    rw [fsReadLoop.eq_def, dif_neg h]
    dsimp only
    constructor
    · split_ifs <;> omega
    · rfl

/-! Full characterization of fsRead: it succeeds for every positive request,
returns the clipped count min(numb, size - cursor) (0 when the cursor is at
or past EOF), fills exactly that many destination bytes from the file,
advances the cursor by that count, and reads each block at most once while
writing none. -/

theorem fsRead_spec (st : FsState) (numb : Int) (buf : Nat → Nat) (h : 0 < numb) :
    ∃ tr, fsRead st numb buf =
      some (min numb.toNat (st.size - st.curs),
        fun i => if i < min numb.toNat (st.size - st.curs) then byteAt st (st.curs + i) else buf i,
        { st with curs := st.curs + min numb.toNat (st.size - st.curs) }, tr) ∧
      ∀ f, countEv f tr ≤ 1 ∧ countWr f tr = 0 := by
  have hk : min numb.toNat (st.size - st.curs) = min numb.toNat (st.size - st.curs) := rfl
  unfold fsRead
  rw [if_neg (by omega)]
  by_cases hbr : bytesToRead st numb ≤ 0
  · rw [if_pos hbr]
    have hk0 : min numb.toNat (st.size - st.curs) = 0 := by
      unfold bytesToRead at hbr
      split at hbr <;> omega
    refine ⟨[], ?_, ?_⟩
    · rw [hk0]
      have hbuf : (fun i => if i < 0 then byteAt st (st.curs + i) else buf i) = buf := by
        funext i
        rw [if_neg (by omega)]
      rw [hbuf]
      rfl
    · intro f
      exact ⟨by simp [countEv_nil], countWr_nil f⟩
  · rw [if_neg hbr]
    have hT : (bytesToRead st numb).toNat = min numb.toNat (st.size - st.curs) := by
      unfold bytesToRead at hbr ⊢
      by_cases hc : (st.curs : Int) + numb > (st.size : Int)
      · rw [if_pos hc] at hbr ⊢
        omega
      · rw [if_neg hc] at hbr ⊢
        omega
    rw [hT]
    have hoff : st.curs % BYTESPERBLOCK < BYTESPERBLOCK := Nat.mod_lt _ B_pos
    have hcnt := fsReadLoop_count st (min numb.toNat (st.size - st.curs)) buf 0
      (st.curs / BYTESPERBLOCK) (st.curs % BYTESPERBLOCK) [] (by omega) hoff
    refine ⟨(fsReadLoop st (min numb.toNat (st.size - st.curs)) buf 0
      (st.curs / BYTESPERBLOCK) (st.curs % BYTESPERBLOCK) []).2.2, ?_, ?_⟩
    · have hbuf : (fsReadLoop st (min numb.toNat (st.size - st.curs)) buf 0
          (st.curs / BYTESPERBLOCK) (st.curs % BYTESPERBLOCK) []).2.1
          = fun i => if i < min numb.toNat (st.size - st.curs) then byteAt st (st.curs + i) else buf i := by
        funext i
        by_cases hik : i < min numb.toNat (st.size - st.curs)
        · rw [if_pos hik]
          rw [fsReadLoop_reads st (min numb.toNat (st.size - st.curs)) buf 0
            (st.curs / BYTESPERBLOCK) (st.curs % BYTESPERBLOCK) [] hoff i (Nat.zero_le i) hik]
          unfold byteAt
          have hidx : st.curs / BYTESPERBLOCK * BYTESPERBLOCK + st.curs % BYTESPERBLOCK + (i - 0)
              = st.curs + i := by
            simp only [B_eq]
            omega
          rw [hidx]
        · rw [if_neg hik]
          exact fsReadLoop_frame st _ buf 0 _ _ [] i (Or.inr (by omega))
      rw [hcnt, hbuf]
    · intro f
      have htr := fsReadLoop_tr st (min numb.toNat (st.size - st.curs)) buf 0
        (st.curs / BYTESPERBLOCK) (st.curs % BYTESPERBLOCK) [] f
      constructor
      · refine le_trans htr.1 ?_
        rw [countEv_nil]
        split_ifs <;> omega
      · rw [htr.2, countWr_nil]

/-! Facts about block-map updates and the gap zero-fill loop. -/

theorem blockByte_upd_same (blocks : Nat → Option (Nat → Nat)) (fbn : Nat)
    (blk : Nat → Nat) (p : Nat) (h : p / BYTESPERBLOCK = fbn) :
    blockByte (updBlocks blocks fbn blk) p = blk (p % BYTESPERBLOCK) := by
  unfold blockByte updBlocks
  rw [h, if_pos rfl]

theorem blockByte_upd_other (blocks : Nat → Option (Nat → Nat)) (fbn : Nat)
    (blk : Nat → Nat) (p : Nat) (h : p / BYTESPERBLOCK ≠ fbn) :
    blockByte (updBlocks blocks fbn blk) p = blockByte blocks p := by
  unfold blockByte updBlocks
  rw [if_neg h]

theorem blockChunk_cases (total done off : Nat) :
    blockChunk total done off = total - done ∨
    blockChunk total done off = BYTESPERBLOCK - off := by
  unfold blockChunk
  split
  · exact Or.inl rfl
  · exact Or.inr rfl

theorem gapZeroed_step (gs cursor p : Nat) (hne : p / BYTESPERBLOCK ≠ gs / BYTESPERBLOCK) :
    gapZeroed (gs + BYTESPERBLOCK) cursor p ↔ gapZeroed gs cursor p := by
  unfold gapZeroed
  simp only [B_eq] at hne ⊢
  omega

theorem gapZeroed_here (gs cursor p : Nat) (hlt : gs < cursor)
    (heq : p / BYTESPERBLOCK = gs / BYTESPERBLOCK) : gapZeroed gs cursor p := by
  unfold gapZeroed
  simp only [B_eq] at heq ⊢
  omega

theorem not_gapZeroed (gs cursor p : Nat) (hge : ¬gs < cursor) :
    ¬gapZeroed gs cursor p := by
  unfold gapZeroed
  simp only [B_eq]
  omega

theorem gapLoop_blockByte :
    ∀ blocks gapStart cursor tr p,
      blockByte (gapLoop blocks gapStart cursor tr).1 p
        = if gapZeroed gapStart cursor p then 0 else blockByte blocks p := by
  intro blocks gapStart cursor tr
  induction blocks, gapStart, cursor, tr using gapLoop.induct with
  | case1 blocks gapStart cursor tr h ih =>
    intro p
    rw [gapLoop.eq_def, if_pos h]
    rw [ih p]
    by_cases hpb : p / BYTESPERBLOCK = gapStart / BYTESPERBLOCK
    · rw [if_pos (gapZeroed_here gapStart cursor p h hpb)]
      by_cases hz2 : gapZeroed (gapStart + BYTESPERBLOCK) cursor p
      · rw [if_pos hz2]
      · rw [if_neg hz2, blockByte_upd_same _ _ _ _ hpb]
    · rw [blockByte_upd_other _ _ _ _ hpb]
      simp only [gapZeroed_step gapStart cursor p hpb]
  | case2 blocks gapStart cursor tr h =>
    intro p
    rw [gapLoop.eq_def, if_neg h]
    rw [if_neg (not_gapZeroed gapStart cursor p h)]

theorem gapLoop_tr :
    ∀ blocks gapStart cursor tr f,
      countWr f (gapLoop blocks gapStart cursor tr).2
          ≤ countWr f tr + (if gapStart / BYTESPERBLOCK ≤ f then 1 else 0) ∧
      countRd f (gapLoop blocks gapStart cursor tr).2 = countRd f tr := by
  intro blocks gapStart cursor tr
  induction blocks, gapStart, cursor, tr using gapLoop.induct with
  | case1 blocks gapStart cursor tr h ih =>
    intro f
    obtain ⟨ih1, ih2⟩ := ih f
    rw [gapLoop.eq_def, if_pos h]
    have hstep : (gapStart + BYTESPERBLOCK) / BYTESPERBLOCK = gapStart / BYTESPERBLOCK + 1 := by
      simp only [B_eq]
      omega
    rw [countWr_append, countWr_wr_single, hstep] at ih1
    rw [countRd_append, countRd_wr_single] at ih2
    constructor
    · refine le_trans ih1 ?_
      split_ifs <;> omega
    · rw [ih2]
      omega
  | case2 blocks gapStart cursor tr h =>
    intro f
    rw [gapLoop.eq_def, if_neg h]
    dsimp only
    constructor
    · split_ifs <;> omega
    · rfl

/-! Correctness of the fsWrite block loop. -/

theorem writeBlockBuf_none (blocks : Nat → Option (Nat → Nat))
    (fbn numb done off j : Nat) (h : blocks fbn = none) :
    writeBlockBuf blocks fbn numb done off j = 0 := by
  unfold writeBlockBuf
  rw [h]

theorem writeBlockBuf_rmw (blocks : Nat → Option (Nat → Nat)) (b : Nat → Nat)
    (fbn numb done off j : Nat) (h : blocks fbn = some b)
    (hr : off ≠ 0 ∨ numb - done < BYTESPERBLOCK) :
    writeBlockBuf blocks fbn numb done off j = b j := by
  unfold writeBlockBuf
  rw [h]
  dsimp only
  rw [if_pos hr]

theorem writeTrEv_counts (blocks : Nat → Option (Nat → Nat))
    (fbn numb done off f : Nat) :
    countRd f (writeTrEv blocks fbn numb done off) ≤ (if fbn = f then 1 else 0) ∧
    countWr f (writeTrEv blocks fbn numb done off) = 0 := by
  unfold writeTrEv
  cases blocks fbn with
  | none =>
    constructor
    · rw [countRd_nil]; split_ifs <;> omega
    · rw [countWr_nil]
  | some b =>
    dsimp only
    split
    · exact ⟨le_of_eq (countRd_rd_single f fbn), countWr_rd_single f fbn⟩
    · constructor
      · rw [countRd_nil]; split_ifs <;> omega
      · rw [countWr_nil]

theorem fsWriteLoop_count :
    ∀ blocks numb buf bytesWritten fbn off tr, bytesWritten ≤ numb → off < BYTESPERBLOCK →
      (fsWriteLoop blocks numb buf bytesWritten fbn off tr).2.1 = numb := by
  intro blocks numb buf bytesWritten fbn off tr
  induction blocks, numb, buf, bytesWritten, fbn, off, tr using fsWriteLoop.induct with
  | case1 blocks numb buf bytesWritten fbn off tr h ih =>
    intro h1 h2
    rw [fsWriteLoop.eq_def, dif_pos h]
    exact ih (by have := blockChunk_le numb bytesWritten off; omega) B_pos
  | case2 blocks numb buf bytesWritten fbn off tr h =>
    intro h1 h2
    rw [fsWriteLoop.eq_def, dif_neg h]
    dsimp only
    omega

theorem fsWriteLoop_tr :
    ∀ blocks numb buf bytesWritten fbn off tr f,
      countRd f (fsWriteLoop blocks numb buf bytesWritten fbn off tr).2.2
          ≤ countRd f tr + (if fbn ≤ f then 1 else 0) ∧
      countWr f (fsWriteLoop blocks numb buf bytesWritten fbn off tr).2.2
          ≤ countWr f tr + (if fbn ≤ f then 1 else 0) := by
  intro blocks numb buf bytesWritten fbn off tr
  induction blocks, numb, buf, bytesWritten, fbn, off, tr using fsWriteLoop.induct with
  | case1 blocks numb buf bytesWritten fbn off tr h ih =>
    intro f
    obtain ⟨ih1, ih2⟩ := ih f
    obtain ⟨hwt1, hwt2⟩ := writeTrEv_counts blocks fbn numb bytesWritten off f
    rw [fsWriteLoop.eq_def, dif_pos h]
    rw [countRd_append, countRd_append, countRd_wr_single] at ih1
    rw [countWr_append, countWr_append, countWr_wr_single, hwt2] at ih2
    constructor
    · refine le_trans ih1 ?_
      split_ifs at hwt1 ⊢ <;> omega
    · refine le_trans ih2 ?_
      split_ifs <;> omega
  | case2 blocks numb buf bytesWritten fbn off tr h =>
    intro f
    rw [fsWriteLoop.eq_def, dif_neg h]
    dsimp only
    constructor <;> (split_ifs <;> omega)

theorem fsWriteLoop_blockByte :
    ∀ blocks numb buf bytesWritten fbn off tr, off < BYTESPERBLOCK →
      ∀ p, blockByte (fsWriteLoop blocks numb buf bytesWritten fbn off tr).1 p
        = if fbn * BYTESPERBLOCK + off ≤ p ∧
             p < fbn * BYTESPERBLOCK + off + (numb - bytesWritten)
          then buf (bytesWritten + (p - (fbn * BYTESPERBLOCK + off)))
          else blockByte blocks p := by
  intro blocks numb buf bytesWritten fbn off tr
  induction blocks, numb, buf, bytesWritten, fbn, off, tr using fsWriteLoop.induct with
  | case1 blocks numb buf bytesWritten fbn off tr h ih =>
    intro hoff p
    rw [fsWriteLoop.eq_def, dif_pos h]
    rw [ih B_pos p]
    have hchl := blockChunk_le numb bytesWritten off
    have hchB := blockChunk_le_B numb bytesWritten off
    have hchpos := blockChunk_pos numb bytesWritten off h.1 h.2
    have hcases := blockChunk_cases numb bytesWritten off
    by_cases hCont : (fbn + 1) * BYTESPERBLOCK + 0 ≤ p ∧
        p < (fbn + 1) * BYTESPERBLOCK + 0 + (numb - (bytesWritten + blockChunk numb bytesWritten off))
    · rw [if_pos hCont]
      have hfull : blockChunk numb bytesWritten off = BYTESPERBLOCK - off := by
        rcases hcases with hc | hc
        · exfalso
          simp only [B_eq] at hCont hc hoff
          omega
        · exact hc
      have hGoalPos : fbn * BYTESPERBLOCK + off ≤ p ∧
          p < fbn * BYTESPERBLOCK + off + (numb - bytesWritten) := by
        simp only [B_eq] at hCont hfull hoff hchl ⊢
        omega
      rw [if_pos hGoalPos]
      have hidx : bytesWritten + blockChunk numb bytesWritten off +
          (p - ((fbn + 1) * BYTESPERBLOCK + 0))
          = bytesWritten + (p - (fbn * BYTESPERBLOCK + off)) := by
        simp only [B_eq] at hCont hfull hoff ⊢
        omega
      rw [hidx]
    · rw [if_neg hCont]
      by_cases hpb : p / BYTESPERBLOCK = fbn
      · rw [blockByte_upd_same _ _ _ _ hpb]
        by_cases hin : off ≤ p % BYTESPERBLOCK ∧
            p % BYTESPERBLOCK < off + blockChunk numb bytesWritten off
        · rw [memcpy_in _ _ _ _ _ _ hin.1 hin.2]
          have hGoalPos : fbn * BYTESPERBLOCK + off ≤ p ∧
              p < fbn * BYTESPERBLOCK + off + (numb - bytesWritten) := by
            simp only [B_eq] at hin hpb hoff hchl ⊢
            omega
          rw [if_pos hGoalPos]
          have hidx : bytesWritten + (p % BYTESPERBLOCK - off)
              = bytesWritten + (p - (fbn * BYTESPERBLOCK + off)) := by
            simp only [B_eq] at hin hpb hoff ⊢
            omega
          rw [hidx]
        · rw [memcpy_out _ _ _ _ _ _ hin]
          have hGoalNeg : ¬(fbn * BYTESPERBLOCK + off ≤ p ∧
              p < fbn * BYTESPERBLOCK + off + (numb - bytesWritten)) := by
            simp only [B_eq] at hCont hin hpb hoff hchl hchB hcases ⊢
            omega
          rw [if_neg hGoalNeg]
          cases hbf : blocks fbn with
          | none =>
            rw [writeBlockBuf_none _ _ _ _ _ _ hbf]
            unfold blockByte
            rw [hpb, hbf]
          | some b =>
            by_cases hrmw : off ≠ 0 ∨ numb - bytesWritten < BYTESPERBLOCK
            · rw [writeBlockBuf_rmw _ _ _ _ _ _ _ hbf hrmw]
              unfold blockByte
              rw [hpb, hbf]
            · exfalso
              have hcond : ¬(bytesWritten + (BYTESPERBLOCK - off) > numb) := by
                simp only [B_eq] at hrmw ⊢
                omega
              have hfull : blockChunk numb bytesWritten off = BYTESPERBLOCK - off := by
                unfold blockChunk
                rw [if_neg hcond]
              have hmlt : p % BYTESPERBLOCK < BYTESPERBLOCK := by
                simp only [B_eq]; omega
              simp only [B_eq] at hin hrmw hfull hmlt hoff
              omega
      · rw [blockByte_upd_other _ _ _ _ hpb]
        have hGoalNeg : ¬(fbn * BYTESPERBLOCK + off ≤ p ∧
            p < fbn * BYTESPERBLOCK + off + (numb - bytesWritten)) := by
          simp only [B_eq] at hCont hpb hoff hchl hchB hcases ⊢
          omega
        rw [if_neg hGoalNeg]
  | case2 blocks numb buf bytesWritten fbn off tr h =>
    intro hoff p
    rw [fsWriteLoop.eq_def, dif_neg h]
    dsimp only
    have hGoalNeg : ¬(fbn * BYTESPERBLOCK + off ≤ p ∧
        p < fbn * BYTESPERBLOCK + off + (numb - bytesWritten)) := by
      simp only [B_eq] at h hoff ⊢
      omega
    rw [if_neg hGoalNeg]

/-! Full characterization of fsWrite: it succeeds for every positive length,
sets the size to cursor + numb exactly when the write reaches past the old
size, advances the cursor by numb, stores the source bytes over
[cursor, cursor + numb), zeroes every block the gap-fill loop visits (and
nothing below the old size outside those blocks changes), and transfers each
block at most once by bioRead and at most twice by bioWrite. -/

theorem fsWrite_spec (st : FsState) (numb : Int) (buf : Nat → Nat) (h : 0 < numb) :
    ∃ bl tr, fsWrite st numb buf =
      some ({ blocks := bl,
              size := if st.curs + numb.toNat > st.size then st.curs + numb.toNat else st.size,
              curs := st.curs + numb.toNat }, tr) ∧
      (∀ p, blockByte bl p =
        if st.curs ≤ p ∧ p < st.curs + numb.toNat then buf (p - st.curs)
        else if st.size < st.curs ∧ gapZeroed st.size st.curs p then 0
        else byteAt st p) ∧
      (∀ f, countRd f tr ≤ 1 ∧ countWr f tr ≤ 2) := by
  have hn : 0 < numb.toNat := by omega
  have hoff : st.curs % BYTESPERBLOCK < BYTESPERBLOCK := Nat.mod_lt _ B_pos
  unfold fsWrite
  rw [if_neg (by omega)]
  have hcnt := fsWriteLoop_count (gapBlocks st numb.toNat).1 numb.toNat buf 0
    (st.curs / BYTESPERBLOCK) (st.curs % BYTESPERBLOCK) [] (by omega) hoff
  refine ⟨(fsWriteLoop (gapBlocks st numb.toNat).1 numb.toNat buf 0
      (st.curs / BYTESPERBLOCK) (st.curs % BYTESPERBLOCK) []).1,
    (gapBlocks st numb.toNat).2 ++ (fsWriteLoop (gapBlocks st numb.toNat).1 numb.toNat buf 0
      (st.curs / BYTESPERBLOCK) (st.curs % BYTESPERBLOCK) []).2.2, ?_, ?_, ?_⟩
  · rw [hcnt]
  · intro p
    have hmain := fsWriteLoop_blockByte (gapBlocks st numb.toNat).1 numb.toNat buf 0
      (st.curs / BYTESPERBLOCK) (st.curs % BYTESPERBLOCK) [] hoff p
    have hXa : st.curs / BYTESPERBLOCK * BYTESPERBLOCK + st.curs % BYTESPERBLOCK = st.curs := by
      simp only [B_eq]
      omega
    rw [hXa, Nat.sub_zero] at hmain
    simp only [Nat.zero_add] at hmain
    rw [hmain]
    unfold gapBlocks
    by_cases hgap : st.curs > st.size
    · have hgrow : st.curs + numb.toNat > st.size := by omega
      rw [if_pos hgrow, if_pos hgap]
      by_cases hA : st.curs ≤ p ∧ p < st.curs + numb.toNat
      · rw [if_pos hA, if_pos hA]
      · rw [if_neg hA, if_neg hA]
        rw [gapLoop_blockByte st.blocks st.size st.curs [] p]
        rw [if_congr (and_iff_right hgap) rfl rfl]
        unfold byteAt
        rfl
    · have hno : ¬(st.size < st.curs ∧ gapZeroed st.size st.curs p) := fun hx => hgap hx.1
      rw [if_neg hno]
      by_cases hgrow : st.curs + numb.toNat > st.size
      · rw [if_pos hgrow, if_neg hgap]
        by_cases hA : st.curs ≤ p ∧ p < st.curs + numb.toNat
        · rw [if_pos hA, if_pos hA]
        · rw [if_neg hA, if_neg hA]
          unfold byteAt
          rfl
      · rw [if_neg hgrow]
        by_cases hA : st.curs ≤ p ∧ p < st.curs + numb.toNat
        · rw [if_pos hA, if_pos hA]
        · rw [if_neg hA, if_neg hA]
          unfold byteAt
          rfl
  · intro f
    rw [countRd_append, countWr_append]
    obtain ⟨hw1, hw2⟩ := fsWriteLoop_tr (gapBlocks st numb.toNat).1 numb.toNat buf 0
      (st.curs / BYTESPERBLOCK) (st.curs % BYTESPERBLOCK) [] f
    rw [countRd_nil] at hw1
    rw [countWr_nil] at hw2
    have hg : countWr f (gapBlocks st numb.toNat).2 ≤ 1 ∧
        countRd f (gapBlocks st numb.toNat).2 = 0 := by
      unfold gapBlocks
      by_cases hgrow : st.curs + numb.toNat > st.size
      · rw [if_pos hgrow]
        by_cases hgap : st.curs > st.size
        · rw [if_pos hgap]
          obtain ⟨hg1, hg2⟩ := gapLoop_tr st.blocks st.size st.curs [] f
          rw [countWr_nil] at hg1
          rw [countRd_nil] at hg2
          exact ⟨le_trans hg1 (by split_ifs <;> omega), hg2⟩
        · rw [if_neg hgap]
          exact ⟨by rw [countWr_nil]; omega, by rw [countRd_nil]⟩
      · rw [if_neg hgrow]
        exact ⟨by rw [countWr_nil]; omega, by rw [countRd_nil]⟩
    obtain ⟨hg1, hg2⟩ := hg
    constructor
    · rw [hg2]
      split_ifs at hw1 <;> omega
    · split_ifs at hw2 <;> omega

/-- A successful fsRead never touches the block map or the size: only the
cursor field of the state can change. -/
theorem fsRead_state (st : FsState) (numb : Int) (buf : Nat → Nat)
    (r : Nat × (Nat → Nat) × FsState × List BioEv) (h : fsRead st numb buf = some r) :
    r.2.2.1.blocks = st.blocks ∧ r.2.2.1.size = st.size := by
  unfold fsRead at h
  split at h
  · exact Option.noConfusion h
  · split at h
    · injection h with h2
      subst h2
      exact ⟨rfl, rfl⟩
    · injection h with h2
      subst h2
      exact ⟨rfl, rfl⟩

/-! Facts about fsSeek and about sequences of operations. -/

theorem fsSeek_neg (st : FsState) (offset whence : Int) (h : offset < 0) :
    fsSeek st offset whence = none := by
  unfold fsSeek
  rw [if_pos h]

theorem fsSeek_state (st : FsState) (offset whence : Int) (r : FsState × List BioEv)
    (h : fsSeek st offset whence = some r) :
    r.1.blocks = st.blocks ∧ r.1.size = st.size ∧ r.2 = [] := by
  unfold fsSeek at h
  split at h
  · exact Option.noConfusion h
  · split at h
    · injection h with h2
      subst h2
      exact ⟨rfl, rfl, rfl⟩
    · split at h
      · injection h with h2
        subst h2
        exact ⟨rfl, rfl, rfl⟩
      · split at h
        · injection h with h2
          subst h2
          exact ⟨rfl, rfl, rfl⟩
        · exact Option.noConfusion h

theorem inW_append (w1 w2 : List (Nat × Nat)) (p : Nat) :
    inW (w1 ++ w2) p ↔ inW w1 p ∨ inW w2 p := by
  simp [inW, List.mem_append, or_and_right, exists_or]

theorem inW_single (c n p : Nat) : inW [(c, n)] p ↔ c ≤ p ∧ p < c + n := by
  simp [inW]

/-- One call preserves the all-zero reading of every position it does not
explicitly write. -/
theorem runStep_zero (st : FsState) (op : Op) (st2 : FsState) (w : List (Nat × Nat))
    (h : runStep st op = some (st2, w)) (p : Nat) (hp : ¬inW w p)
    (h0 : byteAt st p = 0) : byteAt st2 p = 0 := by
  cases op with
  | readOp n =>
    unfold runStep at h
    rw [Option.map_eq_some'] at h
    obtain ⟨r, hr, heq⟩ := h
    cases heq
    have := (fsRead_state st n (fun _ => 0) r hr).1
    unfold byteAt at h0 ⊢
    rw [this]
    exact h0
  | writeOp n b =>
    unfold runStep at h
    rw [Option.map_eq_some'] at h
    obtain ⟨r, hr, heq⟩ := h
    cases heq
    by_cases hn : 0 < n
    · obtain ⟨bl, tr, heqw, hchar, _⟩ := fsWrite_spec st n b hn
      rw [heqw] at hr
      injection hr with hr2
      subst hr2
      unfold byteAt
      rw [hchar p]
      rw [inW_single] at hp
      rw [if_neg (by omega)]
      split
      · rfl
      · exact h0
    · rw [show fsWrite st n b = none from by unfold fsWrite; rw [if_pos (by omega)]] at hr
      exact Option.noConfusion hr
  | seekOp off whence =>
    unfold runStep at h
    rw [Option.map_eq_some'] at h
    obtain ⟨r, hr, heq⟩ := h
    cases heq
    have := (fsSeek_state st off whence r hr).1
    unfold byteAt at h0 ⊢
    rw [this]
    exact h0

/-- A whole run preserves the all-zero reading of every position not written
during it. -/
theorem run_zero (ops : List Op) :
    ∀ st st1 w1, run st ops = some (st1, w1) →
      ∀ p, ¬inW w1 p → byteAt st p = 0 → byteAt st1 p = 0 := by
  induction ops with
  | nil =>
    intro st st1 w1 h p hp h0
    simp only [run] at h
    injection h with h2
    cases h2
    exact h0
  | cons op ops ih =>
    intro st st1 w1 h p hp h0
    simp only [run] at h
    cases hstep : runStep st op with
    | none =>
      rw [hstep] at h
      exact Option.noConfusion h
    | some r =>
      obtain ⟨st2, w⟩ := r
      rw [hstep] at h
      simp only at h
      rw [Option.map_eq_some'] at h
      obtain ⟨⟨st3, w2⟩, hrun, heq⟩ := h
      cases heq
      rw [inW_append] at hp
      push_neg at hp
      exact ih st2 st3 w2 hrun p hp.2 (runStep_zero st op st2 w hstep p hp.1 h0)

/-! Claim theorems. -/

/-- C1: for every open handle with cursor C and file size S and every
requested length N > 0, fsRead returns exactly min(N, S - C) clipped to be
non-negative (Nat subtraction clips at 0), copies exactly that many bytes
into the destination buffer (positions [0, actual) receive the file bytes at
[C, C + actual) and every other destination position is untouched), and
advances the cursor by exactly that many bytes; in particular a request
entirely past end-of-file returns 0 with the cursor unchanged and a request
spanning end-of-file is truncated at S with the cursor advancing only to S. -/
theorem fsRead_clips_and_advances (st : FsState) (numb : Int) (buf : Nat → Nat)
    (h : 0 < numb) :
    ∃ tr, fsRead st numb buf =
      some (min numb.toNat (st.size - st.curs),
        fun i => if i < min numb.toNat (st.size - st.curs) then byteAt st (st.curs + i) else buf i,
        { st with curs := st.curs + min numb.toNat (st.size - st.curs) }, tr) :=
  Exists.imp (fun _ hx => hx.1) (fsRead_spec st numb buf h)

/-- Witness for C1 at the empty initial state with N = 2. -/
theorem fsRead_clips_and_advances_witness :
    (0 : Int) < 2 ∧
    ∃ tr, fsRead initState 2 (fun _ => 7) =
      some (min (2 : Int).toNat (initState.size - initState.curs),
        fun i => if i < min (2 : Int).toNat (initState.size - initState.curs)
          then byteAt initState (initState.curs + i) else (fun _ => 7) i,
        { initState with curs := initState.curs + min (2 : Int).toNat (initState.size - initState.curs) },
        tr) :=
  ⟨by norm_num, fsRead_clips_and_advances initState 2 (fun _ => 7) (by norm_num)⟩

/-- C4: starting from a freshly created file, after any sequence of
read/write/seek calls, every byte position not lying in any interval
explicitly written by some fsWrite of the run reads as zero, both through
byteAt and through a subsequent fsRead; in particular the gap [S, C) of a
write at a cursor C beyond the old size S is never part of a written
interval, so reading any sub-range of it afterwards yields zero bytes. -/
theorem holes_read_zero (ops : List Op) (st : FsState) (w : List (Nat × Nat))
    (h : run initState ops = some (st, w)) :
    (∀ p, ¬inW w p → byteAt st p = 0) ∧
    (∀ numb buf, 0 < numb → ∃ k out st1 tr, fsRead st numb buf = some (k, out, st1, tr) ∧
      ∀ i, i < k → ¬inW w (st.curs + i) → out i = 0) := by
  have hz : ∀ p, ¬inW w p → byteAt st p = 0 :=
    fun p hp => run_zero ops initState st w h p hp rfl
  refine ⟨hz, ?_⟩
  intro numb buf hn
  obtain ⟨tr, heq, _⟩ := fsRead_spec st numb buf hn
  refine ⟨_, _, _, tr, heq, ?_⟩
  intro i hik hni
  show (if i < min numb.toNat (st.size - st.curs) then byteAt st (st.curs + i) else buf i) = 0
  rw [if_pos hik]
  exact hz (st.curs + i) hni

/-- Witness for C4 after a single absolute seek to offset 5. -/
theorem holes_read_zero_witness :
    run initState [Op.seekOp 5 SEEK_SET]
      = some ({ blocks := fun _ => none, size := 0, curs := 5 }, []) ∧
    ((∀ p, ¬inW [] p → byteAt { blocks := fun _ => none, size := 0, curs := 5 } p = 0) ∧
     (∀ numb buf, 0 < numb → ∃ k out st1 tr,
        fsRead { blocks := fun _ => none, size := 0, curs := 5 } numb buf = some (k, out, st1, tr) ∧
        ∀ i, i < k →
          ¬inW [] ((FsState.curs { blocks := fun _ => none, size := 0, curs := 5 }) + i) →
          out i = 0)) :=
  ⟨rfl, holes_read_zero [Op.seekOp 5 SEEK_SET]
    { blocks := fun _ => none, size := 0, curs := 5 } [] rfl⟩

/-- C5: every fsWrite with cursor C, length N > 0 and old size S succeeds
(returns 0, modelled as some); afterwards the size is C + N when C + N > S
and exactly S otherwise, and the cursor is C + N. -/
theorem fsWrite_size_cursor_success (st : FsState) (numb : Int) (buf : Nat → Nat)
    (h : 0 < numb) :
    ∃ st1 tr, fsWrite st numb buf = some (st1, tr) ∧
      st1.size = (if st.curs + numb.toNat > st.size then st.curs + numb.toNat else st.size) ∧
      st1.curs = st.curs + numb.toNat := by
  obtain ⟨bl, tr, heq, _, _⟩ := fsWrite_spec st numb buf h
  exact ⟨_, tr, heq, rfl, rfl⟩

/-- Witness for C5 at the empty initial state with N = 1. -/
theorem fsWrite_size_cursor_success_witness :
    (0 : Int) < 1 ∧
    ∃ st1 tr, fsWrite initState 1 (fun _ => 3) = some (st1, tr) ∧
      st1.size = (if initState.curs + (1 : Int).toNat > initState.size
        then initState.curs + (1 : Int).toNat else initState.size) ∧
      st1.curs = initState.curs + (1 : Int).toNat :=
  ⟨by norm_num, fsWrite_size_cursor_success initState 1 (fun _ => 3) (by norm_num)⟩

/-- C6: file size is monotone: a (successful) fsRead or fsSeek never changes
the size; fsWrite changes it only when the end offset C + N exceeds the old
size, in which case the new size is exactly C + N; size never decreases. -/
theorem size_monotone :
    (∀ st (numb : Int) buf, 0 < numb → ∃ k out st1 tr,
        fsRead st numb buf = some (k, out, st1, tr) ∧ st1.size = st.size) ∧
    (∀ st (offset whence : Int) r, fsSeek st offset whence = some r → r.1.size = st.size) ∧
    (∀ st (numb : Int) buf, 0 < numb → ∃ st1 tr, fsWrite st numb buf = some (st1, tr) ∧
        st1.size = (if st.curs + numb.toNat > st.size then st.curs + numb.toNat else st.size) ∧
        st.size ≤ st1.size) := by
  refine ⟨?_, ?_, ?_⟩
  · intro st numb buf h
    obtain ⟨tr, heq, _⟩ := fsRead_spec st numb buf h
    exact ⟨_, _, _, tr, heq, rfl⟩
  · intro st offset whence r h
    exact (fsSeek_state st offset whence r h).2.1
  · intro st numb buf h
    obtain ⟨bl, tr, heq, _, _⟩ := fsWrite_spec st numb buf h
    refine ⟨_, tr, heq, rfl, ?_⟩
    dsimp only
    split_ifs <;> omega

/-- Witness for C6: a read, a seek and a write at concrete states. -/
theorem size_monotone_witness :
    (∃ k out st1 tr, fsRead initState 1 (fun _ => 0) = some (k, out, st1, tr) ∧
        st1.size = initState.size) ∧
    ((initState, ([] : List BioEv)).1.size = initState.size) ∧
    (∃ st1 tr, fsWrite initState 1 (fun _ => 4) = some (st1, tr) ∧
        st1.size = (if initState.curs + (1 : Int).toNat > initState.size
          then initState.curs + (1 : Int).toNat else initState.size) ∧
        initState.size ≤ st1.size) :=
  ⟨size_monotone.1 initState 1 (fun _ => 0) (by norm_num),
   size_monotone.2.1 initState 0 SEEK_CUR (initState, []) rfl,
   size_monotone.2.2 initState 1 (fun _ => 4) (by norm_num)⟩

/-- C8: fsSeek rejects a negative absolute offset, and rejects any mode whose
computed cursor would be negative (with a non-negative cursor and size this
forces a negative offset, which is rejected before the dispatch); seeking
relative-to-end with offset 0 succeeds and sets the cursor to the file size;
a successful seek never changes the size or the block store and performs no
block transfer. -/
theorem fsSeek_validation_and_effects :
    (∀ st (offset : Int), offset < 0 → fsSeek st offset SEEK_SET = none) ∧
    (∀ st (offset whence : Int),
        ((whence = SEEK_SET ∧ offset < 0) ∨
         (whence = SEEK_CUR ∧ (st.curs : Int) + offset < 0) ∨
         (whence = SEEK_END ∧ (st.size : Int) + offset < 0)) →
        fsSeek st offset whence = none) ∧
    (∀ st, fsSeek st 0 SEEK_END = some ({ st with curs := st.size }, [])) ∧
    (∀ st (offset whence : Int) r, fsSeek st offset whence = some r →
        r.1.size = st.size ∧ r.1.blocks = st.blocks ∧ r.2 = []) := by
  refine ⟨?_, ?_, ?_, ?_⟩
  · intro st offset h
    exact fsSeek_neg st offset SEEK_SET h
  · intro st offset whence h
    have hneg : offset < 0 := by
      rcases h with ⟨_, h2⟩ | ⟨_, h2⟩ | ⟨_, h2⟩ <;> omega
    exact fsSeek_neg st offset whence hneg
  · intro st
    unfold fsSeek
    have h0 : ¬((0 : Int) < 0) := by norm_num
    have h1 : ¬(SEEK_END = SEEK_SET) := by decide
    have h2 : ¬(SEEK_END = SEEK_CUR) := by decide
    rw [if_neg h0, if_neg h1, if_neg h2, if_pos rfl]
    rfl
  · intro st offset whence r h
    obtain ⟨h1, h2, h3⟩ := fsSeek_state st offset whence r h
    exact ⟨h2, h1, h3⟩

/-- Witness for C8 at concrete offsets and modes. -/
theorem fsSeek_validation_and_effects_witness :
    (fsSeek initState (-1) SEEK_SET = none) ∧
    (fsSeek initState (-2) SEEK_CUR = none) ∧
    (fsSeek initState 0 SEEK_END = some ({ initState with curs := initState.size }, [])) ∧
    ((initState, ([] : List BioEv)).1.size = initState.size ∧
     (initState, ([] : List BioEv)).1.blocks = initState.blocks ∧
     (initState, ([] : List BioEv)).2 = []) :=
  ⟨fsSeek_validation_and_effects.1 initState (-1) (by norm_num),
   fsSeek_validation_and_effects.2.1 initState (-2) SEEK_CUR
     (Or.inr (Or.inl ⟨rfl, by norm_num [initState]⟩)),
   fsSeek_validation_and_effects.2.2.1 initState,
   fsSeek_validation_and_effects.2.2.2 initState 0 SEEK_CUR (initState, []) rfl⟩

/-- C9: every fsRead and fsWrite with requested length N ≤ 0 is rejected as a
fatal invalid-argument failure (FATAL(ENEGNUMB), modelled as none), before
any state change or block transfer. -/
theorem nonpositive_length_rejected (st : FsState) (numb : Int) (buf : Nat → Nat)
    (h : numb ≤ 0) :
    fsRead st numb buf = none ∧ fsWrite st numb buf = none := by
  constructor
  · unfold fsRead
    rw [if_pos h]
  · unfold fsWrite
    rw [if_pos h]

/-- Witness for C9 at length 0 and at length -3. -/
theorem nonpositive_length_rejected_witness :
    ((0 : Int) ≤ 0 ∧
      (fsRead initState 0 (fun _ => 0) = none ∧ fsWrite initState 0 (fun _ => 0) = none)) ∧
    ((-3 : Int) ≤ 0 ∧
      (fsRead initState (-3) (fun _ => 0) = none ∧ fsWrite initState (-3) (fun _ => 0) = none)) :=
  ⟨⟨le_refl 0, nonpositive_length_rejected initState 0 (fun _ => 0) (le_refl 0)⟩,
   ⟨by norm_num, nonpositive_length_rejected initState (-3) (fun _ => 0) (by norm_num)⟩⟩

/-- C2 counterexample state: nothing written yet, size 0, cursor 0. -/
theorem write_seekCur_read_roundtrip_cex :
    (fsWrite initState 1 (fun _ => 7)).isSome = true ∧
    ((fsWrite initState 1 (fun _ => 7)).bind fun r => fsSeek r.1 (-1) SEEK_CUR) = none := by
  obtain ⟨bl, tr, heq, _, _⟩ := fsWrite_spec initState 1 (fun _ => 7) (by norm_num)
  rw [heq]
  exact ⟨rfl, fsSeek_neg _ _ _ (by norm_num)⟩

/-- C2 (amended): the write/seek/read round-trip holds with the seek step
performed as an absolute seek back to the write's start offset; the
relative-to-cursor seek by -N of the original claim is rejected by fsSeek,
which aborts on every negative offset. -/
theorem write_seekSet_read_roundtrip (st : FsState) (numb : Int) (buf out0 : Nat → Nat)
    (h : 0 < numb) :
    ∃ st1 tr1 st2 k out st3 tr3,
      fsWrite st numb buf = some (st1, tr1) ∧
      fsSeek st1 (st.curs : Int) SEEK_SET = some (st2, []) ∧
      fsRead st2 numb out0 = some (k, out, st3, tr3) ∧
      k = numb.toNat ∧ (∀ i, i < numb.toNat → out i = buf i) := by
  obtain ⟨bl, tr1, heqW, hchar, _⟩ := fsWrite_spec st numb buf h
  have hcn : ¬((st.curs : Int) < 0) := by omega
  have hseek : fsSeek
      { blocks := bl,
        size := if st.curs + numb.toNat > st.size then st.curs + numb.toNat else st.size,
        curs := st.curs + numb.toNat }
      (st.curs : Int) SEEK_SET
      = some ({ blocks := bl,
                size := if st.curs + numb.toNat > st.size then st.curs + numb.toNat else st.size,
                curs := st.curs }, []) := by
    unfold fsSeek
    rw [if_neg hcn, if_pos rfl]
    rfl
  obtain ⟨tr3, heqR, _⟩ := fsRead_spec
    { blocks := bl,
      size := if st.curs + numb.toNat > st.size then st.curs + numb.toNat else st.size,
      curs := st.curs } numb out0 h
  have hkmin : min numb.toNat
      ((if st.curs + numb.toNat > st.size then st.curs + numb.toNat else st.size) - st.curs)
      = numb.toNat := by
    split_ifs <;> omega
  refine ⟨_, tr1, _, _, _, _, tr3, heqW, hseek, heqR, ?_, ?_⟩
  · exact hkmin
  · intro i hi
    show (if i < min numb.toNat
        ((if st.curs + numb.toNat > st.size then st.curs + numb.toNat else st.size) - st.curs)
      then byteAt
        { blocks := bl,
          size := if st.curs + numb.toNat > st.size then st.curs + numb.toNat else st.size,
          curs := st.curs } (st.curs + i)
      else out0 i) = buf i
    rw [hkmin, if_pos hi]
    show blockByte bl (st.curs + i) = buf i
    rw [hchar (st.curs + i)]
    have hcond : st.curs ≤ st.curs + i ∧ st.curs + i < st.curs + numb.toNat := by omega
    rw [if_pos hcond]
    have hsub : st.curs + i - st.curs = i := by omega
    rw [hsub]

/-- Witness for the amended C2 at the empty initial state with N = 1. -/
theorem write_seekSet_read_roundtrip_witness :
    (0 : Int) < 1 ∧
    ∃ st1 tr1 st2 k out st3 tr3,
      fsWrite initState 1 (fun _ => 9) = some (st1, tr1) ∧
      fsSeek st1 (initState.curs : Int) SEEK_SET = some (st2, []) ∧
      fsRead st2 1 (fun _ => 0) = some (k, out, st3, tr3) ∧
      k = (1 : Int).toNat ∧ (∀ i, i < (1 : Int).toNat → out i = (fun _ => 9) i) :=
  ⟨by norm_num,
   write_seekSet_read_roundtrip initState 1 (fun _ => 9) (fun _ => 0) (by norm_num)⟩

/-- C3 counterexample state: one block holding the single byte 9, file size 1,
cursor already moved (by an absolute seek) to offset 2 beyond the size. -/
def partialState : FsState :=
  { blocks := fun f => if f = 0 then some (fun i => if i = 0 then 9 else 0) else none,
    size := 1,
    curs := 2 }

/-- C3 counterexample: writing 1 byte at cursor 2 with old size 1 zeroes byte
position 0, which lies strictly below the old size and outside both the gap
[1, 2) and the written range [2, 3); the claim demands that it retain its
previous contents 9, but the gap-fill loop bioWrites a full zero block over
the old final block. -/
theorem fsWrite_frame_cex :
    byteAt partialState 0 = 9 ∧
    ((fsWrite partialState 1 (fun _ => 5)).map fun r => byteAt r.1 0) = some 0 := by
  constructor
  · rfl
  · obtain ⟨bl, tr, heq, hchar, _⟩ := fsWrite_spec partialState 1 (fun _ => 5) (by norm_num)
    rw [heq, Option.map_some']
    refine congrArg some ?_
    show blockByte bl 0 = 0
    rw [hchar 0]
    have h1 : ¬(partialState.curs ≤ 0 ∧ 0 < partialState.curs + (1 : Int).toNat) := by decide
    have h2 : partialState.size < partialState.curs ∧
        gapZeroed partialState.size partialState.curs 0 := by decide
    rw [if_neg h1, if_pos h2]

/-- C3 (amended): for every fsWrite with cursor C, length N > 0 and old size
S, a byte position p strictly below S and outside the written range [C, C+N)
retains its previous contents, except that when C > S every position of the
old final partial block (p with floor(S/B)*B ≤ p < S) is zeroed, because the
gap-fill loop writes whole zero blocks starting at the block containing S. -/
theorem fsWrite_frame_below_old_size (st : FsState) (numb : Int) (buf : Nat → Nat)
    (p : Nat) (h : 0 < numb) (hp : p < st.size)
    (hout : ¬(st.curs ≤ p ∧ p < st.curs + numb.toNat)) :
    ∃ st1 tr, fsWrite st numb buf = some (st1, tr) ∧
      byteAt st1 p = if st.size < st.curs ∧ st.size / BYTESPERBLOCK * BYTESPERBLOCK ≤ p
        then 0 else byteAt st p := by
  obtain ⟨bl, tr, heq, hchar, _⟩ := fsWrite_spec st numb buf h
  refine ⟨_, tr, heq, ?_⟩
  unfold byteAt
  dsimp only
  rw [hchar p, if_neg hout]
  have hiff : (st.size < st.curs ∧ gapZeroed st.size st.curs p)
      ↔ (st.size < st.curs ∧ st.size / BYTESPERBLOCK * BYTESPERBLOCK ≤ p) := by
    unfold gapZeroed
    simp only [B_eq] at hp ⊢
    omega
  rw [if_congr hiff rfl rfl]
  unfold byteAt
  rfl

/-- Witness for the amended C3: the counterexample state and position, where
the zeroing case of the amended statement applies. -/
theorem fsWrite_frame_below_old_size_witness :
    ((0 : Int) < 1 ∧ (0 : Nat) < partialState.size ∧
      ¬(partialState.curs ≤ 0 ∧ 0 < partialState.curs + (1 : Int).toNat)) ∧
    ∃ st1 tr, fsWrite partialState 1 (fun _ => 5) = some (st1, tr) ∧
      byteAt st1 0 = if partialState.size < partialState.curs ∧
          partialState.size / BYTESPERBLOCK * BYTESPERBLOCK ≤ 0
        then 0 else byteAt partialState 0 :=
  ⟨⟨by norm_num, by decide, by decide⟩,
   fsWrite_frame_below_old_size partialState 1 (fun _ => 5) 0 (by norm_num)
     (by decide) (by decide)⟩

/-- C10 counterexample state: cursor at offset 5. -/
def backState : FsState := { blocks := fun _ => none, size := 0, curs := 5 }

/-- C10 counterexample: an absolute seek to offset 0 from cursor 5 succeeds
and moves the cursor backwards, refuting the claim's conclusion that no seek
can ever move the cursor backwards. -/
theorem fsSeek_backward_cex :
    fsSeek backState 0 SEEK_SET = some ({ backState with curs := 0 }, []) ∧
    (0 : Nat) < backState.curs :=
  ⟨rfl, by decide⟩

/-- C10 (amended): fsSeek rejects every negative offset as a fatal failure
before dispatching on the mode, for all three modes, even when the resulting
cursor would be non-negative; consequently no relative-to-cursor seek can
move the cursor backwards (absolute and relative-to-end seeks still can). -/
theorem fsSeek_neg_offset_reject :
    (∀ st (offset whence : Int), offset < 0 → fsSeek st offset whence = none) ∧
    (∀ st (offset : Int) r, fsSeek st offset SEEK_CUR = some r → st.curs ≤ r.1.curs) := by
  refine ⟨fun st o w hw => fsSeek_neg st o w hw, ?_⟩
  intro st offset r h
  unfold fsSeek at h
  split at h
  · exact Option.noConfusion h
  · split at h
    · next hcond => exact absurd hcond (by decide)
    · split at h
      · injection h with h2
        subst h2
        dsimp only
        omega
      · split at h
        · next hcond => exact absurd hcond (by decide)
        · exact Option.noConfusion h

/-- Witness for the amended C10: seek by -1 fails in SEEK_END mode, and a
concrete relative-to-cursor seek does not decrease the cursor. -/
theorem fsSeek_neg_offset_reject_witness :
    ((-1 : Int) < 0 ∧ fsSeek initState (-1) SEEK_END = none) ∧
    (fsSeek initState 3 SEEK_CUR
        = some ({ blocks := fun _ => none, size := 0, curs := 3 }, []) ∧
      initState.curs ≤ (({ blocks := fun _ => none, size := 0, curs := 3 } : FsState),
        ([] : List BioEv)).1.curs) :=
  ⟨⟨by norm_num, fsSeek_neg_offset_reject.1 initState (-1) SEEK_END (by norm_num)⟩,
   ⟨rfl, fsSeek_neg_offset_reject.2 initState 3
      ({ blocks := fun _ => none, size := 0, curs := 3 }, []) rfl⟩⟩

/-- C7 counterexample state: block 0 exists (bytes all 1), size 10, cursor 0,
so a 5-byte write at cursor 0 is a partial overwrite of an existing block. -/
def rmwState : FsState :=
  { blocks := fun f => if f = 0 then some (fun _ => 1) else none,
    size := 10,
    curs := 0 }

/-- C7 counterexample: a single 5-byte fsWrite into an existing block
transfers that block twice (one bioRead for the read-modify-write, one
bioWrite to store it back), refuting the at-most-once bound. -/
theorem single_transfer_cex :
    ∃ st1 tr, fsWrite rmwState 5 (fun _ => 2) = some (st1, tr) ∧ 1 < countEv 0 tr := by
  have hn : ¬((5 : Int) ≤ 0) := by norm_num
  have hc1 : (0 : Nat) < 5 ∧ (0 : Nat) < BYTESPERBLOCK := by decide
  have hc2 : ¬(0 + blockChunk 5 0 0 < 5 ∧ (0 : Nat) < BYTESPERBLOCK) := by decide
  have hloop : fsWriteLoop rmwState.blocks 5 (fun _ => 2) 0 0 0 []
      = (updBlocks rmwState.blocks 0 (memcpy (writeBlockBuf rmwState.blocks 0 5 0 0)
          (fun _ => 2) 0 0 (blockChunk 5 0 0)), 0 + blockChunk 5 0 0,
         [] ++ writeTrEv rmwState.blocks 0 5 0 0 ++ [BioEv.wr 0]) := by
    rw [fsWriteLoop.eq_def, dif_pos hc1, fsWriteLoop.eq_def, dif_neg hc2]
  have harg : fsWriteLoop (gapBlocks rmwState (5 : Int).toNat).1 (5 : Int).toNat
      (fun _ => 2) 0 (rmwState.curs / BYTESPERBLOCK) (rmwState.curs % BYTESPERBLOCK) []
      = fsWriteLoop rmwState.blocks 5 (fun _ => 2) 0 0 0 [] := rfl
  refine ⟨{ blocks := updBlocks rmwState.blocks 0
              (memcpy (writeBlockBuf rmwState.blocks 0 5 0 0) (fun _ => 2) 0 0
                (blockChunk 5 0 0)),
            size := 10,
            curs := 5 },
    [BioEv.rd 0, BioEv.wr 0], ?_, ?_⟩
  · unfold fsWrite
    rw [if_neg hn, harg, hloop]
    rfl
  · decide

/-- C7 (amended): within a single fsRead call each disk block is transferred
at most once (no writes, at most one read per block); within a single
fsWrite call each block is read at most once and written at most twice (a
gap zero-fill write plus the write-back of the block loop, whose
read-modify-write also accounts for the single read), hence transferred at
most three times in total.  The original at-most-once bound fails for any
write that only partially covers an existing block. -/
theorem per_block_transfer_bounds (st : FsState) (numb : Int) (buf : Nat → Nat)
    (f : Nat) (h : 0 < numb) :
    (∃ k out st1 tr, fsRead st numb buf = some (k, out, st1, tr) ∧ countEv f tr ≤ 1) ∧
    (∃ st1 tr, fsWrite st numb buf = some (st1, tr) ∧
      countRd f tr ≤ 1 ∧ countWr f tr ≤ 2 ∧ countEv f tr ≤ 3) := by
  constructor
  · obtain ⟨tr, heq, hcnt⟩ := fsRead_spec st numb buf h
    exact ⟨_, _, _, tr, heq, (hcnt f).1⟩
  · obtain ⟨bl, tr, heq, _, hcnt⟩ := fsWrite_spec st numb buf h
    obtain ⟨h1, h2⟩ := hcnt f
    refine ⟨_, tr, heq, h1, h2, ?_⟩
    rw [countEv_eq_add]
    omega

/-- Witness for the amended C7 at the empty initial state, block 0. -/
theorem per_block_transfer_bounds_witness :
    (0 : Int) < 1 ∧
    ((∃ k out st1 tr, fsRead initState 1 (fun _ => 0) = some (k, out, st1, tr) ∧
        countEv 0 tr ≤ 1) ∧
     (∃ st1 tr, fsWrite initState 1 (fun _ => 0) = some (st1, tr) ∧
        countRd 0 tr ≤ 1 ∧ countWr 0 tr ≤ 2 ∧ countEv 0 tr ≤ 3)) :=
  ⟨by norm_num, per_block_transfer_bounds initState 1 (fun _ => 0) 0 (by norm_num)⟩

end BFS
